import Mathlib

/-!
A shallow embedding of `src/apriori.py`.

This file embeds the `Apriori` class of `src/apriori.py` (transaction
construction, support counting, level-wise frequent-itemset mining and
association-rule derivation) as executable Lean definitions and proves the
specification claims about it.

Modelling conventions:
* Python `float` arithmetic is modelled with exact rationals (`ℚ`), matching
  the specification's description of support as a rational number.
* Python `frozenset` values are modelled as `Finset`; the transaction list is
  a `List (Finset α)`.
* A Python `dict` from itemsets to supports is modelled as its key set
  together with its stored-value function (`FDict`).
* The `ZeroDivisionError` that `_frequent_itemsets_supports` would raise when
  the store is empty and the per-itemset loop body runs is modelled by an
  `Option` result (`none` = exception).
* The `ValueError` / `KeyError` of `generate_association_rules` are modelled
  by an `Except RuleErr` result.
* The unbounded `while True` loop of `generate_frequent_itemsets` is modelled
  with an explicit fuel parameter: `none` means the fuel ran out before the
  loop's own exit condition (`if not itemsets: break`) fired, so a `some`
  result is exactly a run in which the loop terminated by itself.
-/

namespace AprioriSpec

variable {α : Type} [DecidableEq α]

/-- `'%s_%s' % (col_, row_)` from `Apriori._construct_transactions` (line 27):
the token combining one column identifier with one cell value. -/
def combine_item (col v : String) : String := col ++ "_" ++ v

/-- `Apriori._construct_transactions` (lines 17-30): one transaction per row,
`frozenset` of the combined tokens. -/
def construct_transactions (cols : List String) (rows : List (List String)) :
    List (Finset String) :=
  rows.map fun row => ((row.zip cols).map fun p => combine_item p.2 p.1).toFinset

/-- The set of items occurring in at least one transaction. -/
def itemUniverse (ts : List (Finset α)) : Finset α := ts.foldr (fun t u => t ∪ u) ∅

/-- An `Apriori` instance after `__init__` (lines 10-15): the stored
transaction list and the two thresholds. -/
structure Apriori (α : Type) [DecidableEq α] where
  transactions : List (Finset α)
  min_support : ℚ
  min_confidence : ℚ

/-- `self.one_item_sets` (lines 23, 29-30): the singletons of every item
occurring in some transaction. -/
def one_item_sets (A : Apriori α) : Finset (Finset α) :=
  (itemUniverse A.transactions).image fun a => {a}

/-- Line 71: `float(sum(1 for row in self.transactions if item.issubset(row)))
/ transactions_len`. -/
def support (s : Finset α) (ts : List (Finset α)) : ℚ :=
  ((ts.countP fun t => decide (s ⊆ t) : ℕ) : ℚ) / (ts.length : ℚ)

/-- A Python `dict` from itemsets to rationals: its key set together with the
stored-value function (the latter is meaningful on the keys). -/
structure FDict (α : Type) [DecidableEq α] where
  keys : Finset (Finset α)
  val : Finset α → ℚ

/-- Python `dict.update`: keys are merged and the values of the right operand
win on its keys. -/
def FDict.update (d e : FDict α) : FDict α :=
  ⟨d.keys ∪ e.keys, fun s => if s ∈ e.keys then e.val s else d.val s⟩

/-- `Apriori._generate_candidates` (lines 32-39): all pairwise unions
`x.union(y)` over the given itemsets, deduplicated by `set(...)`, keeping
those whose size is exactly `k`. -/
def generate_candidates (itemsets : Finset (Finset α)) (k : ℕ) : Finset (Finset α) :=
  ((itemsets ×ˢ itemsets).image fun p => p.1 ∪ p.2).filter fun c => c.card = k

/-- `Apriori._frequent_itemsets_supports` (lines 62-75): the support of every
given itemset is computed and those with `support >= self.min_support` are
stored with their support. `none` models the `ZeroDivisionError` raised when
`len(self.transactions) == 0` and the loop body runs at least once. -/
def frequent_itemsets_supports (A : Apriori α) (itemsets : Finset (Finset α)) :
    Option (FDict α) :=
  if A.transactions.length = 0 ∧ itemsets.Nonempty then none
  else some ⟨itemsets.filter fun s => A.min_support ≤ support s A.transactions,
             fun s => support s A.transactions⟩

/-- The `while True` loop of `Apriori.generate_frequent_itemsets`
(lines 50-60), with fuel. `table` is `self.frequent_itemsets`, `level` is the
local variable `itemsets` (the previous level's frequent itemsets). -/
def mineLoop (A : Apriori α) (fuel : ℕ) (table level : FDict α) (k : ℕ) :
    Option (FDict α) :=
  match fuel with
  | 0 => none
  | fuel + 1 =>
    match frequent_itemsets_supports A (generate_candidates level.keys k) with
    | none => none
    | some level' =>
      if level'.keys = ∅ then some table
      else mineLoop A fuel (table.update level') level' (k + 1)

/-- `Apriori.generate_frequent_itemsets` (lines 41-60): seed with the frequent
1-itemsets, then run the level-wise loop from `k = 2`. -/
def generate_frequent_itemsets (A : Apriori α) (fuel : ℕ) : Option (FDict α) :=
  match frequent_itemsets_supports A (one_item_sets A) with
  | none => none
  | some level1 => mineLoop A fuel level1 level1 2

/-- `Apriori._generate_subsets` (lines 77-84): `combinations(itemset, i)` for
`i` in `range(1, len(itemset))`, i.e. the subsets of sizes `1 .. len-1`. -/
def generate_subsets (s : Finset α) : Finset (Finset α) :=
  s.powerset.filter fun X => 1 ≤ X.card ∧ X.card ≤ s.card - 1

/-- Line 101: `if itemsets_len and len(itemset) != itemsets_len: continue`.
An itemset is kept when the filter is falsy (`None` or `0`) or its size
matches. -/
def keepLen : Option ℕ → Finset α → Bool
  | none, _ => true
  | some n, s => n == 0 || s.card == n

/-- The two exceptions `Apriori.generate_association_rules` can raise:
the `ValueError` of line 92 and the `KeyError` of the dict lookup in
line 108. -/
inductive RuleErr where
  | notMined : RuleErr
  | keyMissing : RuleErr
deriving DecidableEq

/-- The rule triples collected by the loop of lines 95-110 from a populated
table `d`: for every stored itemset of size ≥ 2 passing the length filter,
every generated subset `X` with `support / d[X] >= min_confidence` yields the
rule `(X, itemset - X, confidence)`. -/
def rulesFrom (d : FDict α) (minConf : ℚ) (len? : Option ℕ) :
    Finset (Finset α × Finset α × ℚ) :=
  (d.keys.filter fun s => 2 ≤ s.card ∧ keepLen len? s).biUnion fun s =>
    ((generate_subsets s).filter fun X => minConf ≤ d.val s / d.val X).image
      fun X => (X, s \ X, d.val s / d.val X)

/-- `Apriori.generate_association_rules` (lines 86-110). `fi` is
`self.frequent_itemsets` (`none` before mining), `minConf` is
`self.min_confidence`. `.error .notMined` models the `ValueError` raised when
`self.frequent_itemsets` is falsy (either `None` or the empty dict);
`.error .keyMissing` models the `KeyError` a lookup
`self.frequent_itemsets[X]` would raise on a missing key. -/
def generate_association_rules (fi : Option (FDict α)) (minConf : ℚ)
    (len? : Option ℕ) : Except RuleErr (Finset (Finset α × Finset α × ℚ)) :=
  match fi with
  | none => .error .notMined
  | some d =>
    if d.keys = ∅ then .error .notMined
    else if ∃ s ∈ d.keys.filter (fun u => 2 ≤ Finset.card u ∧ keepLen len? u),
            ∃ X ∈ generate_subsets s, X ∉ d.keys then .error .keyMissing
    else .ok (rulesFrom d minConf len?)

/-- The semantically frequent itemsets of size `k` (proof scaffolding). -/
def idealFreq (A : Apriori α) (k : ℕ) : Finset (Finset α) :=
  (itemUniverse A.transactions).powerset.filter fun s =>
    s.card = k ∧ A.min_support ≤ support s A.transactions

/-- All semantically frequent itemsets of sizes `k+1 .. |universe|`
(proof scaffolding). -/
def freqAbove (A : Apriori α) (k : ℕ) : Finset (Finset α) :=
  (Finset.Ioc k (itemUniverse A.transactions).card).sup fun j => idealFreq A j

/-- All semantically frequent itemsets of sizes `1 .. |universe|`
(proof scaffolding). -/
def allFreq (A : Apriori α) : Finset (Finset α) :=
  (Finset.Icc 1 (itemUniverse A.transactions).card).sup fun j => idealFreq A j

section BasicLemmas

lemma mem_itemUniverse {a : α} {ts : List (Finset α)} :
    a ∈ itemUniverse ts ↔ ∃ t ∈ ts, a ∈ t := by
  induction ts with
  | nil => simp [itemUniverse]
  | cons t ts ih =>
    simp only [itemUniverse, List.foldr_cons, Finset.mem_union, List.mem_cons]
    rw [itemUniverse] at ih
    rw [ih]
    constructor
    · rintro (h | ⟨u, hu, ha⟩)
      · exact ⟨t, Or.inl rfl, h⟩
      · exact ⟨u, Or.inr hu, ha⟩
    · rintro ⟨u, (rfl | hu), ha⟩
      · exact Or.inl ha
      · exact Or.inr ⟨u, hu, ha⟩

lemma subset_itemUniverse_of_mem {t : Finset α} {ts : List (Finset α)}
    (h : t ∈ ts) : t ⊆ itemUniverse ts := fun a ha =>
  mem_itemUniverse.2 ⟨t, h, ha⟩

lemma support_nonneg (s : Finset α) (ts : List (Finset α)) : 0 ≤ support s ts := by
  unfold support
  positivity

/-- Anti-monotonicity of the raw containment count. -/
lemma countP_subset_anti {s₁ s₂ : Finset α} (ts : List (Finset α)) (h : s₁ ⊆ s₂) :
    (ts.countP fun t => decide (s₂ ⊆ t)) ≤ ts.countP fun t => decide (s₁ ⊆ t) := by
  refine List.countP_mono_left fun t _ ht => ?_
  simp only [decide_eq_true_eq] at ht ⊢
  exact h.trans ht

/-- Anti-monotonicity of support (the computation of line 71). -/
lemma support_anti {s₁ s₂ : Finset α} (ts : List (Finset α)) (h : s₁ ⊆ s₂) :
    support s₂ ts ≤ support s₁ ts := by
  unfold support
  rcases Nat.eq_zero_or_pos ts.length with hl | hl
  · simp [hl]
  · have hc : (0 : ℚ) < (ts.length : ℚ) := by exact_mod_cast hl
    gcongr
    exact_mod_cast countP_subset_anti ts h

lemma exists_superset_of_support_pos {s : Finset α} {ts : List (Finset α)}
    (h : 0 < support s ts) : ∃ t ∈ ts, s ⊆ t := by
  by_contra hn
  have hz : (ts.countP fun t => decide (s ⊆ t)) = 0 := by
    rw [List.countP_eq_zero]
    intro t ht
    simp only [decide_eq_true_eq]
    exact fun hsub => hn ⟨t, ht, hsub⟩
  rw [support, hz] at h
  norm_num at h

lemma subset_universe_of_support_pos {s : Finset α} {ts : List (Finset α)}
    (h : 0 < support s ts) : s ⊆ itemUniverse ts := by
  obtain ⟨t, ht, hsub⟩ := exists_superset_of_support_pos h
  exact hsub.trans (subset_itemUniverse_of_mem ht)

lemma mem_idealFreq {A : Apriori α} {k : ℕ} {s : Finset α} :
    s ∈ idealFreq A k ↔
      s ⊆ itemUniverse A.transactions ∧ s.card = k ∧
        A.min_support ≤ support s A.transactions := by
  simp [idealFreq, Finset.mem_filter, Finset.mem_powerset]

end BasicLemmas

section LevelLemmas

lemma card_le_universe_of_mem_idealFreq {A : Apriori α} {k : ℕ} {s : Finset α}
    (h : s ∈ idealFreq A k) : k ≤ (itemUniverse A.transactions).card := by
  rw [mem_idealFreq] at h
  exact h.2.1 ▸ Finset.card_le_card h.1

lemma mem_freqAbove {A : Apriori α} {m : ℕ} {x : Finset α} :
    x ∈ freqAbove A m ↔ ∃ j, m < j ∧ x ∈ idealFreq A j := by
  unfold freqAbove
  rw [Finset.mem_sup]
  constructor
  · rintro ⟨j, hj, hx⟩
    rw [Finset.mem_Ioc] at hj
    exact ⟨j, hj.1, hx⟩
  · rintro ⟨j, hj, hx⟩
    exact ⟨j, Finset.mem_Ioc.2 ⟨hj, card_le_universe_of_mem_idealFreq hx⟩, hx⟩

lemma mem_allFreq {A : Apriori α} {x : Finset α} :
    x ∈ allFreq A ↔ ∃ j, 1 ≤ j ∧ x ∈ idealFreq A j := by
  unfold allFreq
  rw [Finset.mem_sup]
  constructor
  · rintro ⟨j, hj, hx⟩
    rw [Finset.mem_Icc] at hj
    exact ⟨j, hj.1, hx⟩
  · rintro ⟨j, hj, hx⟩
    exact ⟨j, Finset.mem_Icc.2 ⟨hj, card_le_universe_of_mem_idealFreq hx⟩, hx⟩

lemma idealFreq_nonempty_down {A : Apriori α} {k j : ℕ} (hkj : k ≤ j)
    (h : (idealFreq A j).Nonempty) : (idealFreq A k).Nonempty := by
  obtain ⟨s, hs⟩ := h
  rw [mem_idealFreq] at hs
  obtain ⟨t, hts, htc⟩ := Finset.exists_subset_card_eq (hs.2.1 ▸ hkj : k ≤ s.card)
  exact ⟨t, mem_idealFreq.2 ⟨hts.trans hs.1, htc,
    le_trans hs.2.2 (support_anti A.transactions hts)⟩⟩

lemma freqAbove_eq_empty {A : Apriori α} {k : ℕ} (hk : 1 ≤ k)
    (h : idealFreq A k = ∅) : freqAbove A (k - 1) = ∅ := by
  rw [Finset.eq_empty_iff_forall_not_mem]
  intro x hx
  rw [mem_freqAbove] at hx
  obtain ⟨j, hj, hxj⟩ := hx
  have : (idealFreq A k).Nonempty := idealFreq_nonempty_down (by omega) ⟨x, hxj⟩
  rw [h] at this
  exact Finset.not_nonempty_empty this

lemma freqAbove_glue {A : Apriori α} {k : ℕ} (hk : 1 ≤ k) :
    freqAbove A (k - 1) = idealFreq A k ∪ freqAbove A k := by
  ext x
  rw [Finset.mem_union, mem_freqAbove, mem_freqAbove]
  constructor
  · rintro ⟨j, hj, hx⟩
    rcases eq_or_lt_of_le (by omega : k ≤ j) with rfl | hlt
    · exact Or.inl hx
    · exact Or.inr ⟨j, hlt, hx⟩
  · rintro (hx | ⟨j, hj, hx⟩)
    · exact ⟨k, by omega, hx⟩
    · exact ⟨j, by omega, hx⟩

lemma allFreq_glue (A : Apriori α) : allFreq A = idealFreq A 1 ∪ freqAbove A 1 := by
  ext x
  rw [Finset.mem_union, mem_allFreq, mem_freqAbove]
  constructor
  · rintro ⟨j, hj, hx⟩
    rcases eq_or_lt_of_le hj with rfl | hlt
    · exact Or.inl hx
    · exact Or.inr ⟨j, hlt, hx⟩
  · rintro (hx | ⟨j, hj, hx⟩)
    · exact ⟨1, le_refl 1, hx⟩
    · exact ⟨j, by omega, hx⟩

/-- Seeding (line 47): filtering the 1-itemsets by support yields exactly the
semantically frequent 1-itemsets, and no division by zero happens because an
empty store has no 1-itemsets. -/
lemma level1_eq (A : Apriori α) :
    frequent_itemsets_supports A (one_item_sets A) =
      some ⟨idealFreq A 1, fun s => support s A.transactions⟩ := by
  unfold frequent_itemsets_supports
  rw [if_neg]
  · have hkeys : ((one_item_sets A).filter
        fun s => A.min_support ≤ support s A.transactions) = idealFreq A 1 := by
      ext s
      rw [Finset.mem_filter, mem_idealFreq]
      constructor
      · rintro ⟨hs, hsup⟩
        obtain ⟨a, ha, rfl⟩ := Finset.mem_image.1 hs
        exact ⟨Finset.singleton_subset_iff.2 ha, Finset.card_singleton a, hsup⟩
      · rintro ⟨hsub, hcard, hsup⟩
        obtain ⟨a, rfl⟩ := Finset.card_eq_one.1 hcard
        exact ⟨Finset.mem_image.2 ⟨a, Finset.singleton_subset_iff.1 hsub, rfl⟩, hsup⟩
    rw [hkeys]
  · rintro ⟨hlen, hne⟩
    rw [List.length_eq_zero] at hlen
    obtain ⟨s, hs⟩ := hne
    obtain ⟨a, ha, rfl⟩ := Finset.mem_image.1 hs
    rw [hlen] at ha
    simp [itemUniverse] at ha

/-- Membership in the self-join candidate set (lines 32-39). -/
lemma mem_generate_candidates {S : Finset (Finset α)} {k : ℕ} {c : Finset α} :
    c ∈ generate_candidates S k ↔ (∃ x ∈ S, ∃ y ∈ S, x ∪ y = c) ∧ c.card = k := by
  unfold generate_candidates
  simp only [Finset.mem_filter, Finset.mem_image, Finset.mem_product]
  constructor
  · rintro ⟨⟨⟨x, y⟩, ⟨hx, hy⟩, rfl⟩, hc⟩
    exact ⟨⟨x, hx, y, hy, rfl⟩, hc⟩
  · rintro ⟨⟨x, hx, y, hy, rfl⟩, hc⟩
    exact ⟨⟨⟨x, y⟩, ⟨hx, hy⟩, rfl⟩, hc⟩

lemma erase_union_erase_of_ne {c : Finset α} {a b : α} (hab : a ≠ b) :
    c.erase a ∪ c.erase b = c := by
  ext z
  simp only [Finset.mem_union, Finset.mem_erase]
  constructor
  · rintro (⟨_, hz⟩ | ⟨_, hz⟩) <;> exact hz
  · intro hz
    by_cases hza : z = a
    · exact Or.inr ⟨hza ▸ hab, hz⟩
    · exact Or.inl ⟨hza, hz⟩

/-- Level step (lines 52-53): filtering the self-join candidates built from
the semantically frequent (k-1)-itemsets by support yields exactly the
semantically frequent k-itemsets; the division of line 71 is never reached
on an empty store because there are then no candidates. -/
lemma candidates_step (A : Apriori α) {k : ℕ} (hk : 2 ≤ k) :
    frequent_itemsets_supports A (generate_candidates (idealFreq A (k - 1)) k) =
      some ⟨idealFreq A k, fun s => support s A.transactions⟩ := by
  unfold frequent_itemsets_supports
  rw [if_neg]
  · have hkeys : ((generate_candidates (idealFreq A (k - 1)) k).filter
        fun s => A.min_support ≤ support s A.transactions) = idealFreq A k := by
      ext c
      rw [Finset.mem_filter, mem_generate_candidates, mem_idealFreq]
      constructor
      · rintro ⟨⟨⟨x, hx, y, hy, rfl⟩, hcard⟩, hsup⟩
        exact ⟨Finset.union_subset (mem_idealFreq.1 hx).1 (mem_idealFreq.1 hy).1,
          hcard, hsup⟩
      · rintro ⟨hsub, hcard, hsup⟩
        obtain ⟨a, ha, b, hb, hab⟩ := Finset.one_lt_card.1 (by omega : 1 < c.card)
        have hmem : ∀ z ∈ c, c.erase z ∈ idealFreq A (k - 1) := by
          intro z hz
          refine mem_idealFreq.2 ⟨(Finset.erase_subset z c).trans hsub, ?_, ?_⟩
          · rw [Finset.card_erase_of_mem hz, hcard]
          · exact le_trans hsup (support_anti A.transactions (Finset.erase_subset z c))
        exact ⟨⟨⟨c.erase a, hmem a ha, c.erase b, hmem b hb,
          erase_union_erase_of_ne hab⟩, hcard⟩, hsup⟩
    rw [hkeys]
  · rintro ⟨hlen, hne⟩
    rw [List.length_eq_zero] at hlen
    obtain ⟨c, hc⟩ := hne
    obtain ⟨⟨x, hx, -, -, -⟩, -⟩ := mem_generate_candidates.1 hc
    have hxU := (mem_idealFreq.1 hx).1
    have hxc := (mem_idealFreq.1 hx).2.1
    rw [hlen] at hxU
    simp only [itemUniverse, List.foldr_nil, Finset.subset_empty] at hxU
    rw [hxU] at hxc
    simp at hxc
    omega

end LevelLemmas

section LoopLemmas

/-- Soundness of the level-wise loop (lines 50-60): any run of the loop that
ends by its own exit condition, entered at level `k` with the semantically
frequent (k-1)-itemsets, returns the accumulated table extended with exactly
the semantically frequent itemsets of every size ≥ k, all mapped to their
support. -/
lemma mineLoop_sound (A : Apriori α) :
    ∀ (fuel : ℕ) {k : ℕ} (table level : FDict α) {d : FDict α}, 2 ≤ k →
      level.keys = idealFreq A (k - 1) →
      (∀ s ∈ table.keys, table.val s = support s A.transactions) →
      mineLoop A fuel table level k = some d →
      d.keys = table.keys ∪ freqAbove A (k - 1) ∧
        ∀ s ∈ d.keys, d.val s = support s A.transactions := by
  intro fuel
  induction fuel with
  | zero =>
    intro k table level d _ _ _ h
    simp [mineLoop] at h
  | succ fuel ih =>
    intro k table level d hk hlevel htv h
    rw [mineLoop, hlevel, candidates_step A hk] at h
    simp only at h
    by_cases hempty : idealFreq A k = ∅
    · rw [if_pos hempty] at h
      obtain rfl : table = d := Option.some.inj h
      rw [freqAbove_eq_empty (by omega) hempty, Finset.union_empty]
      exact ⟨rfl, htv⟩
    · rw [if_neg hempty] at h
      have hstep := ih (table.update ⟨idealFreq A k, fun s => support s A.transactions⟩)
        ⟨idealFreq A k, fun s => support s A.transactions⟩
        (by omega) (by simp) ?_ h
      · obtain ⟨hkeys, hval⟩ := hstep
        refine ⟨?_, hval⟩
        rw [hkeys, freqAbove_glue (by omega : 1 ≤ k)]
        simp only [FDict.update, Nat.add_sub_cancel]
        rw [Finset.union_assoc]
      · intro s hs
        simp only [FDict.update, Finset.mem_union] at hs ⊢
        by_cases hsl : s ∈ (⟨idealFreq A k, fun s => support s A.transactions⟩ : FDict α).keys
        · rw [if_pos hsl]
        · rw [if_neg hsl]
          rcases hs with hs | hs
          · exact htv s hs
          · exact absurd hs hsl

/-- Soundness of `generate_frequent_itemsets` (lines 41-60): any run in which
the loop terminates by itself produces the table whose keys are exactly the
semantically frequent itemsets of every size ≥ 1, each mapped to its
support. -/
lemma generate_frequent_itemsets_sound (A : Apriori α) {fuel : ℕ} {d : FDict α}
    (h : generate_frequent_itemsets A fuel = some d) :
    d.keys = allFreq A ∧ ∀ s ∈ d.keys, d.val s = support s A.transactions := by
  rw [generate_frequent_itemsets, level1_eq A] at h
  simp only at h
  have hstep := mineLoop_sound A fuel
    ⟨idealFreq A 1, fun s => support s A.transactions⟩
    ⟨idealFreq A 1, fun s => support s A.transactions⟩
    (le_refl 2) rfl (fun s _ => rfl) h
  rw [allFreq_glue]
  exact hstep

/-- The characterization of `allFreq` under a positive support threshold. -/
lemma mem_allFreq_iff {A : Apriori α} (hmin : 0 < A.min_support) {s : Finset α} :
    s ∈ allFreq A ↔ s.Nonempty ∧ A.min_support ≤ support s A.transactions := by
  rw [mem_allFreq]
  constructor
  · rintro ⟨j, hj, hx⟩
    rw [mem_idealFreq] at hx
    exact ⟨Finset.card_pos.1 (hx.2.1 ▸ hj), hx.2.2⟩
  · rintro ⟨hne, hsup⟩
    have hpos : 0 < support s A.transactions := lt_of_lt_of_le hmin hsup
    exact ⟨s.card, Finset.card_pos.2 hne,
      mem_idealFreq.2 ⟨subset_universe_of_support_pos hpos, rfl, hsup⟩⟩

/-- Termination of the level-wise loop: with fuel at least
`|universe| + 2 - k`, the loop entered at level `k` with itemsets of size
`k - 1` drawn from the universe reaches its own exit condition. -/
lemma mineLoop_isSome (A : Apriori α) :
    ∀ (fuel : ℕ) {k : ℕ} (table level : FDict α), 2 ≤ k → 1 ≤ fuel →
      (∀ s ∈ level.keys, s ⊆ itemUniverse A.transactions ∧ s.card + 1 = k) →
      (itemUniverse A.transactions).card + 2 ≤ fuel + k →
      (mineLoop A fuel table level k).isSome := by
  intro fuel
  induction fuel with
  | zero =>
    intro k table level _ hf _ _
    omega
  | succ fuel ih =>
    intro k table level hk _ hinv hbound
    have hcand : ∀ c ∈ generate_candidates level.keys k,
        c ⊆ itemUniverse A.transactions ∧ c.card = k := by
      intro c hc
      obtain ⟨⟨x, hx, y, hy, rfl⟩, hcard⟩ := mem_generate_candidates.1 hc
      exact ⟨Finset.union_subset (hinv x hx).1 (hinv y hy).1, hcard⟩
    rw [mineLoop, frequent_itemsets_supports, if_neg ?_]
    · simp only
      by_cases hempty : ((generate_candidates level.keys k).filter
          fun s => A.min_support ≤ support s A.transactions) = ∅
      · rw [if_pos hempty]
        exact Option.isSome_some
      · rw [if_neg hempty]
        obtain ⟨c, hc⟩ := Finset.nonempty_of_ne_empty hempty
        obtain ⟨hcU, hck⟩ := hcand c (Finset.mem_filter.1 hc).1
        have hkcard : k ≤ (itemUniverse A.transactions).card :=
          hck ▸ Finset.card_le_card hcU
        refine ih _ _ (by omega) (by omega) ?_ (by omega)
        intro s hs
        obtain ⟨hsU, hsk⟩ := hcand s (Finset.mem_filter.1 hs).1
        exact ⟨hsU, by omega⟩
    · rintro ⟨hlen, hne⟩
      rw [List.length_eq_zero] at hlen
      obtain ⟨c, hc⟩ := hne
      obtain ⟨hcU, hck⟩ := hcand c hc
      rw [hlen] at hcU
      simp only [itemUniverse, List.foldr_nil, Finset.subset_empty] at hcU
      rw [hcU] at hck
      simp at hck
      omega

/-- Termination of `generate_frequent_itemsets` with fuel `|universe| + 1`. -/
lemma generate_isSome (A : Apriori α) {fuel : ℕ}
    (hfuel : (itemUniverse A.transactions).card + 1 ≤ fuel) :
    (generate_frequent_itemsets A fuel).isSome := by
  rw [generate_frequent_itemsets, level1_eq A]
  simp only
  refine mineLoop_isSome A fuel _ _ (le_refl 2) (by omega) ?_ (by omega)
  intro s hs
  rw [show (⟨idealFreq A 1, fun s => support s A.transactions⟩ : FDict α).keys
      = idealFreq A 1 from rfl, mem_idealFreq] at hs
  exact ⟨hs.1, by rw [hs.2.1]⟩

end LoopLemmas

section RuleLemmas

/-- Membership in `_generate_subsets` (lines 77-84): exactly the non-empty
proper subsets. -/
lemma mem_generate_subsets {s X : Finset α} :
    X ∈ generate_subsets s ↔ X ⊆ s ∧ X.Nonempty ∧ X ≠ s := by
  unfold generate_subsets
  rw [Finset.mem_filter, Finset.mem_powerset]
  constructor
  · rintro ⟨hsub, h1, h2⟩
    refine ⟨hsub, Finset.card_pos.1 (by omega), ?_⟩
    rintro rfl
    omega
  · rintro ⟨hsub, hne, hne'⟩
    have hlt : X.card < s.card :=
      Finset.card_lt_card (Finset.ssubset_iff_subset_ne.2 ⟨hsub, hne'⟩)
    exact ⟨hsub, Finset.card_pos.2 hne, by omega⟩

/-- With a filter that is not `some 0`, the Python truthiness check of
line 101 is an exact size filter. -/
lemma keepLen_eq_true_iff {len? : Option ℕ} (hlen : len? ≠ some 0) {s : Finset α} :
    keepLen len? s = true ↔ ∀ n, len? = some n → s.card = n := by
  cases len? with
  | none => simp [keepLen]
  | some n =>
    have hn : n ≠ 0 := fun h => hlen (h ▸ rfl)
    simp [keepLen, hn]

/-- Membership in the collected rule set of lines 95-110. -/
lemma mem_rulesFrom {d : FDict α} {minConf : ℚ} {len? : Option ℕ}
    {r : Finset α × Finset α × ℚ} :
    r ∈ rulesFrom d minConf len? ↔
      ∃ s ∈ d.keys, 2 ≤ s.card ∧ keepLen len? s = true ∧
        ∃ X ∈ generate_subsets s, minConf ≤ d.val s / d.val X ∧
          r = (X, s \ X, d.val s / d.val X) := by
  unfold rulesFrom
  simp only [Finset.mem_biUnion, Finset.mem_filter, Finset.mem_image]
  constructor
  · rintro ⟨s, ⟨hs, h2, hkl⟩, X, ⟨hX, hconf⟩, rfl⟩
    exact ⟨s, hs, h2, hkl, X, hX, hconf, rfl⟩
  · rintro ⟨s, hs, h2, hkl, X, hX, hconf, rfl⟩
    exact ⟨s, ⟨hs, h2, hkl⟩, X, ⟨hX, hconf⟩, rfl⟩

/-- When the table is non-empty and closed under the generated subsets,
`generate_association_rules` succeeds and returns exactly the collected
rule set. -/
lemma generate_association_rules_ok {d : FDict α} (minConf : ℚ) (len? : Option ℕ)
    (hne : d.keys ≠ ∅)
    (hcomp : ∀ s ∈ d.keys, 2 ≤ s.card → keepLen len? s = true →
      ∀ X ∈ generate_subsets s, X ∈ d.keys) :
    generate_association_rules (some d) minConf len? =
      .ok (rulesFrom d minConf len?) := by
  show (if d.keys = ∅ then Except.error RuleErr.notMined
    else if ∃ s ∈ d.keys.filter (fun u => 2 ≤ Finset.card u ∧ keepLen len? u),
        ∃ X ∈ generate_subsets s, X ∉ d.keys then Except.error RuleErr.keyMissing
    else Except.ok (rulesFrom d minConf len?)) = Except.ok (rulesFrom d minConf len?)
  rw [if_neg hne, if_neg]
  rintro ⟨s, hs, X, hX, hXnot⟩
  rw [Finset.mem_filter] at hs
  exact hXnot (hcomp s hs.1 hs.2.1 hs.2.2 X hX)

end RuleLemmas

section SharedHelpers

/-- On an empty store the mining run succeeds (with any positive fuel) and
yields a table with no keys: the per-itemset division of line 71 is never
reached because `one_item_sets` is empty. -/
lemma generate_on_nil (A : Apriori α) (fuel : ℕ) (hts : A.transactions = [])
    (hfuel : 1 ≤ fuel) :
    ∃ d, generate_frequent_itemsets A fuel = some d ∧ d.keys = ∅ := by
  have hU : itemUniverse A.transactions = ∅ := by rw [hts]; rfl
  have hfuel' : (itemUniverse A.transactions).card + 1 ≤ fuel := by
    rw [hU]
    simpa using hfuel
  obtain ⟨d, hd⟩ := Option.isSome_iff_exists.1 (generate_isSome A hfuel')
  obtain ⟨hkeys, -⟩ := generate_frequent_itemsets_sound A hd
  refine ⟨d, hd, ?_⟩
  rw [hkeys, allFreq, hU]
  simp

end SharedHelpers

section ClaimTheorems

/-- C1: after `generate_frequent_itemsets` runs to completion (fuel at least
`|universe| + 1` lets the loop reach its own exit condition) on a non-empty
transaction store with a positive `min_support`, the produced table maps an
itemset to its support exactly when the itemset is non-empty and its support
is at least `min_support`; in particular every non-empty subset of a recorded
itemset is itself recorded. -/
theorem frequent_table_exact_and_complete (A : Apriori α) (fuel : ℕ)
    (hmin : 0 < A.min_support) (hts : A.transactions ≠ [])
    (hfuel : (itemUniverse A.transactions).card + 1 ≤ fuel) :
    ∃ d, generate_frequent_itemsets A fuel = some d ∧
      (∀ s : Finset α, s ∈ d.keys ↔
        s.Nonempty ∧ A.min_support ≤ support s A.transactions) ∧
      (∀ s ∈ d.keys, d.val s = support s A.transactions) ∧
      (∀ s ∈ d.keys, ∀ x, x ⊆ s → x.Nonempty → x ∈ d.keys) := by
  obtain ⟨d, hd⟩ := Option.isSome_iff_exists.1 (generate_isSome A hfuel)
  obtain ⟨hkeys, hval⟩ := generate_frequent_itemsets_sound A hd
  have hchar : ∀ s : Finset α, s ∈ d.keys ↔
      s.Nonempty ∧ A.min_support ≤ support s A.transactions := by
    intro s
    rw [hkeys]
    exact mem_allFreq_iff hmin
  refine ⟨d, hd, hchar, hval, ?_⟩
  intro s hs x hxs hxne
  rw [hchar] at hs ⊢
  exact ⟨hxne, le_trans hs.2 (support_anti A.transactions hxs)⟩

/-- Witness for C1 at a concrete one-transaction store. -/
theorem frequent_table_exact_and_complete_witness :
    ∃ d, generate_frequent_itemsets (⟨[{0}], 1/2, 1/2⟩ : Apriori ℕ) 2 = some d ∧
      (∀ s : Finset ℕ, s ∈ d.keys ↔ s.Nonempty ∧ (1/2 : ℚ) ≤ support s [{0}]) ∧
      (∀ s ∈ d.keys, d.val s = support s [{0}]) ∧
      (∀ s ∈ d.keys, ∀ x, x ⊆ s → x.Nonempty → x ∈ d.keys) :=
  frequent_table_exact_and_complete ⟨[{0}], 1/2, 1/2⟩ 2 (by norm_num)
    (by simp) (by decide)

/-- C5: mining an empty transaction store terminates normally with an empty
table; in particular no division by zero is signalled even though the
transaction count is zero. -/
theorem empty_store_mines_empty_table (A : Apriori α) (fuel : ℕ)
    (hts : A.transactions = []) (hfuel : 1 ≤ fuel) :
    ∃ d, generate_frequent_itemsets A fuel = some d ∧ d.keys = ∅ :=
  generate_on_nil A fuel hts hfuel

/-- Witness for C5. -/
theorem empty_store_mines_empty_table_witness :
    ∃ d, generate_frequent_itemsets (⟨[], 1, 1⟩ : Apriori ℕ) 1 = some d ∧
      d.keys = ∅ :=
  empty_store_mines_empty_table ⟨[], 1, 1⟩ 1 rfl (le_refl 1)

/-- C6: support is anti-monotone: for all itemsets `s₁ ⊆ s₂`, the computed
support of `s₁` is at least the computed support of `s₂`. -/
theorem support_anti_monotone {s₁ s₂ : Finset α} (ts : List (Finset α))
    (h : s₁ ⊆ s₂) : support s₂ ts ≤ support s₁ ts :=
  support_anti ts h

/-- Witness for C6. -/
theorem support_anti_monotone_witness :
    ({0} : Finset ℕ) ⊆ {0, 1} ∧
      support ({0, 1} : Finset ℕ) [{0}] ≤ support {0} [{0}] :=
  ⟨by decide, support_anti_monotone [{0}] (by decide)⟩

/-- C7: candidate generation returns exactly the deduplicated pairwise unions
of the input itemsets whose size is exactly `k`, with no subset-frequency
pruning. -/
theorem generate_candidates_exact (S : Finset (Finset α)) (k : ℕ) (c : Finset α) :
    c ∈ generate_candidates S k ↔ (∃ x ∈ S, ∃ y ∈ S, x ∪ y = c) ∧ c.card = k :=
  mem_generate_candidates

/-- C9: with a positive `min_support`, mining any finite transaction store
terminates: fuel `|universe| + 1` already lets the level-wise loop reach its
own exit condition (a level with no frequent itemsets), so the run returns a
table instead of running out of fuel. -/
theorem mining_terminates (A : Apriori α) (hmin : 0 < A.min_support) :
    ∃ d, generate_frequent_itemsets A
      ((itemUniverse A.transactions).card + 1) = some d :=
  Option.isSome_iff_exists.1 (generate_isSome A (le_refl _))

/-- Witness for C9. -/
theorem mining_terminates_witness :
    ∃ d, generate_frequent_itemsets (⟨[{0}], 1, 1⟩ : Apriori ℕ)
      ((itemUniverse [({0} : Finset ℕ)]).card + 1) = some d :=
  mining_terminates ⟨[{0}], 1, 1⟩ (by norm_num)

/-- C10: calling `generate_association_rules` with `itemsets_len = 0` behaves
identically to calling it with no size filter, because `0` is falsy in the
check of line 101. -/
theorem itemsets_len_zero_is_no_filter (fi : Option (FDict α)) (minConf : ℚ) :
    generate_association_rules fi minConf (some 0) =
      generate_association_rules fi minConf none := by
  have hk : (keepLen (some 0) : Finset α → Bool) = keepLen none := by
    funext u
    simp [keepLen]
  cases fi with
  | none => rfl
  | some d => simp only [generate_association_rules, rulesFrom, hk]

/-- Counterexample to C3: on the spec's own scenario (empty transaction
list), mining runs and explicitly produces an (empty) table, yet
`generate_association_rules` raises the usage `ValueError` (the empty dict is
falsy in the check of line 91) instead of returning zero rules. -/
theorem rules_error_on_empty_mined_table :
    ∃ d : FDict ℕ,
      generate_frequent_itemsets (⟨[], 1/2, 1/2⟩ : Apriori ℕ) 1 = some d ∧
      d.keys = ∅ ∧
      generate_association_rules (some d) (1/2) none = .error .notMined ∧
      generate_association_rules (some d) (1/2) none ≠
        .ok (∅ : Finset (Finset ℕ × Finset ℕ × ℚ)) := by
  obtain ⟨d, hd, hkeys⟩ := generate_on_nil (⟨[], 1/2, 1/2⟩ : Apriori ℕ) 1 rfl (le_refl 1)
  have herr : generate_association_rules (some d) (1/2 : ℚ) none = .error .notMined := by
    simp only [generate_association_rules]
    rw [if_pos hkeys]
  exact ⟨d, hd, hkeys, herr, by rw [herr]; simp⟩

/-- C3 amended: invoking rule derivation before mining raises the usage
error; after a completed mining run, the same usage error is raised exactly
when the produced table is empty (the empty-table case is conflated with the
not-mined case rather than yielding zero rules), while a non-empty table
never raises it. -/
theorem rules_usage_error_amended (A : Apriori α) (fuel : ℕ) (minConf : ℚ)
    (len? : Option ℕ) (hfuel : (itemUniverse A.transactions).card + 1 ≤ fuel) :
    generate_association_rules (none : Option (FDict α)) minConf len? =
      .error .notMined ∧
    ∃ d, generate_frequent_itemsets A fuel = some d ∧
      (d.keys = ∅ →
        generate_association_rules (some d) minConf len? = .error .notMined) ∧
      (d.keys ≠ ∅ →
        generate_association_rules (some d) minConf len? ≠ .error .notMined) := by
  refine ⟨rfl, ?_⟩
  obtain ⟨d, hd⟩ := Option.isSome_iff_exists.1 (generate_isSome A hfuel)
  refine ⟨d, hd, fun hk => ?_, fun hk => ?_⟩
  · simp only [generate_association_rules]
    rw [if_pos hk]
  · simp only [generate_association_rules]
    rw [if_neg hk]
    split
    · simp
    · simp

/-- Witness for the amended C3. -/
theorem rules_usage_error_amended_witness :
    generate_association_rules (none : Option (FDict ℕ)) 1 none =
      .error .notMined ∧
    ∃ d, generate_frequent_itemsets (⟨[{0}], 1, 1⟩ : Apriori ℕ) 2 = some d ∧
      (d.keys = ∅ →
        generate_association_rules (some d) 1 none = .error .notMined) ∧
      (d.keys ≠ ∅ →
        generate_association_rules (some d) 1 none ≠ .error .notMined) :=
  rules_usage_error_amended ⟨[{0}], 1, 1⟩ 2 1 none (by decide)

/-- Counterexample to C4: the token combination rule of line 27 is not
injective: the distinct (column, value) pairs `("a_b", "c")` and
`("a", "b_c")` produce the same token. -/
theorem combine_item_not_injective :
    combine_item "a_b" "c" = combine_item "a" "b_c" ∧
      ¬(("a_b" : String) = "a" ∧ ("c" : String) = "b_c") := by
  refine ⟨by decide, ?_⟩
  rintro ⟨h, -⟩
  exact absurd h (by decide)

lemma append_underscore_inj :
    ∀ (l₁ : List Char) {l₂ s₁ s₂ : List Char}, '_' ∉ l₁ → '_' ∉ l₂ →
      l₁ ++ '_' :: s₁ = l₂ ++ '_' :: s₂ → l₁ = l₂ ∧ s₁ = s₂ := by
  intro l₁
  induction l₁ with
  | nil =>
    intro l₂ s₁ s₂ h₁ h₂ h
    cases l₂ with
    | nil => simpa using h
    | cons b l₂ =>
      simp only [List.nil_append, List.cons_append, List.cons.injEq] at h
      exact absurd (h.1 ▸ List.mem_cons_self b l₂) h₂
  | cons a l₁ ih =>
    intro l₂ s₁ s₂ h₁ h₂ h
    cases l₂ with
    | nil =>
      simp only [List.cons_append, List.nil_append, List.cons.injEq] at h
      exact absurd (h.1 ▸ List.mem_cons_self a l₁) h₁
    | cons b l₂ =>
      simp only [List.cons_append, List.cons.injEq] at h
      have hrest := ih (fun hm => h₁ (List.mem_cons_of_mem a hm))
        (fun hm => h₂ (List.mem_cons_of_mem b hm)) h.2
      exact ⟨by rw [h.1, hrest.1], hrest.2⟩

/-- C4 amended: the combination rule is injective on all pairs whose column
identifier contains no underscore (the counterexample forces this
restriction; cell values remain unconstrained). -/
theorem combine_item_inj_of_no_underscore (c₁ v₁ c₂ v₂ : String)
    (h₁ : '_' ∉ c₁.data) (h₂ : '_' ∉ c₂.data)
    (h : combine_item c₁ v₁ = combine_item c₂ v₂) : c₁ = c₂ ∧ v₁ = v₂ := by
  unfold combine_item at h
  have hdata := congrArg String.data h
  rw [String.data_append, String.data_append, String.data_append,
    String.data_append] at hdata
  have hl : c₁.data ++ '_' :: v₁.data = c₂.data ++ '_' :: v₂.data := by
    simpa using hdata
  obtain ⟨hc, hv⟩ := append_underscore_inj c₁.data h₁ h₂ hl
  exact ⟨String.ext hc, String.ext hv⟩

/-- Witness for the amended C4. -/
theorem combine_item_inj_of_no_underscore_witness :
    ("a" : String) = "a" ∧ ("b" : String) = "b" :=
  combine_item_inj_of_no_underscore "a" "b" "a" "b" (by decide) (by decide) rfl

/-- C2: from a completed mining run with positive thresholds (and a size
filter that is not the degenerate `some 0`), rule derivation on a non-empty
table emits, for each stored itemset of size ≥ 2 passing the size filter,
exactly the rules `(X, itemset \ X, support(itemset)/support(X))` over the
non-empty proper subsets `X` whose confidence meets `min_confidence`; every
emitted rule has disjoint non-empty antecedent and consequent whose union is
a stored itemset, and its confidence lies in `(0, 1]`. -/
theorem association_rules_exact (A : Apriori α) (fuel : ℕ) (len? : Option ℕ)
    (hmin : 0 < A.min_support) (hconf : 0 < A.min_confidence)
    (hts : A.transactions ≠ [])
    (hfuel : (itemUniverse A.transactions).card + 1 ≤ fuel)
    (hlen : len? ≠ some 0) :
    ∃ d, generate_frequent_itemsets A fuel = some d ∧
      (d.keys.Nonempty →
        ∃ R, generate_association_rules (some d) A.min_confidence len? = .ok R ∧
          (∀ X Y c, (X, Y, c) ∈ R ↔
            ∃ t ∈ d.keys, 2 ≤ t.card ∧ (∀ n, len? = some n → t.card = n) ∧
              X ⊆ t ∧ X.Nonempty ∧ X ≠ t ∧ Y = t \ X ∧
              c = support t A.transactions / support X A.transactions ∧
              A.min_confidence ≤ c) ∧
          (∀ X Y c, (X, Y, c) ∈ R →
            Disjoint X Y ∧ X.Nonempty ∧ Y.Nonempty ∧ X ∪ Y ∈ d.keys ∧
              0 < c ∧ c ≤ 1)) := by
  obtain ⟨d, hd⟩ := Option.isSome_iff_exists.1 (generate_isSome A hfuel)
  obtain ⟨hkeys, hval⟩ := generate_frequent_itemsets_sound A hd
  have hchar : ∀ s : Finset α, s ∈ d.keys ↔
      s.Nonempty ∧ A.min_support ≤ support s A.transactions := by
    intro s
    rw [hkeys]
    exact mem_allFreq_iff hmin
  refine ⟨d, hd, fun hne => ?_⟩
  have hcomp : ∀ s ∈ d.keys, 2 ≤ s.card → keepLen len? s = true →
      ∀ X ∈ generate_subsets s, X ∈ d.keys := by
    intro s hs _ _ X hX
    obtain ⟨hXs, hXne, -⟩ := mem_generate_subsets.1 hX
    exact (hchar X).2
      ⟨hXne, le_trans ((hchar s).1 hs).2 (support_anti A.transactions hXs)⟩
  refine ⟨rulesFrom d A.min_confidence len?,
    generate_association_rules_ok A.min_confidence len?
      (Finset.nonempty_iff_ne_empty.1 hne) hcomp, ?_, ?_⟩
  · intro X Y c
    rw [mem_rulesFrom]
    constructor
    · rintro ⟨t, ht, h2, hkl, X', hX', hcf, heq⟩
      simp only [Prod.mk.injEq] at heq
      obtain ⟨rfl, rfl, rfl⟩ := heq
      obtain ⟨hXs, hXne, hXne'⟩ := mem_generate_subsets.1 hX'
      have hXkeys : X ∈ d.keys := hcomp t ht h2 hkl X hX'
      have hvt : d.val t = support t A.transactions := hval t ht
      have hvX : d.val X = support X A.transactions := hval X hXkeys
      refine ⟨t, ht, h2, (keepLen_eq_true_iff hlen).1 hkl, hXs, hXne, hXne',
        rfl, by rw [hvt, hvX], ?_⟩
      exact hcf
    · rintro ⟨t, ht, h2, hkl, hXs, hXne, hXne', rfl, rfl, hcf⟩
      have hX' : X ∈ generate_subsets t := mem_generate_subsets.2 ⟨hXs, hXne, hXne'⟩
      have hklb : keepLen len? t = true := (keepLen_eq_true_iff hlen).2 hkl
      have hXkeys : X ∈ d.keys := hcomp t ht h2 hklb X hX'
      have hvt : d.val t = support t A.transactions := hval t ht
      have hvX : d.val X = support X A.transactions := hval X hXkeys
      refine ⟨t, ht, h2, hklb, X, hX', ?_, ?_⟩
      · rw [hvt, hvX]
        exact hcf
      · rw [hvt, hvX]
  · intro X Y c hmem
    rw [mem_rulesFrom] at hmem
    obtain ⟨t, ht, h2, hkl, X', hX', hcf, heq⟩ := hmem
    simp only [Prod.mk.injEq] at heq
    obtain ⟨rfl, rfl, rfl⟩ := heq
    obtain ⟨hXs, hXne, hXne'⟩ := mem_generate_subsets.1 hX'
    have hXkeys : X ∈ d.keys := hcomp t ht h2 hkl X hX'
    have hvt : d.val t = support t A.transactions := hval t ht
    have hvX : d.val X = support X A.transactions := hval X hXkeys
    have hsupt : 0 < support t A.transactions :=
      lt_of_lt_of_le hmin ((hchar t).1 ht).2
    have hsupX : 0 < support X A.transactions :=
      lt_of_lt_of_le hmin ((hchar X).1 hXkeys).2
    refine ⟨Finset.disjoint_sdiff, hXne, ?_, ?_, ?_, ?_⟩
    · rw [Finset.sdiff_nonempty]
      intro hts'
      exact hXne' (Finset.Subset.antisymm hXs hts')
    · rw [Finset.union_sdiff_of_subset hXs]
      exact ht
    · rw [hvt, hvX]
      exact div_pos hsupt hsupX
    · rw [hvt, hvX, div_le_one hsupX]
      exact support_anti A.transactions hXs

/-- Witness for C2 at a concrete two-transaction store. -/
theorem association_rules_exact_witness :
    ∃ d, generate_frequent_itemsets (⟨[{0, 1}, {0}], 1/2, 1/2⟩ : Apriori ℕ) 3 =
        some d ∧
      (d.keys.Nonempty →
        ∃ R, generate_association_rules (some d) (1/2 : ℚ) none = .ok R ∧
          (∀ X Y c, (X, Y, c) ∈ R ↔
            ∃ t ∈ d.keys, 2 ≤ t.card ∧ (∀ n, (none : Option ℕ) = some n → t.card = n) ∧
              X ⊆ t ∧ X.Nonempty ∧ X ≠ t ∧ Y = t \ X ∧
              c = support t [{0, 1}, {0}] / support X [{0, 1}, {0}] ∧
              (1/2 : ℚ) ≤ c) ∧
          (∀ X Y c, (X, Y, c) ∈ R →
            Disjoint X Y ∧ X.Nonempty ∧ Y.Nonempty ∧ X ∪ Y ∈ d.keys ∧
              0 < c ∧ c ≤ 1)) :=
  association_rules_exact ⟨[{0, 1}, {0}], 1/2, 1/2⟩ 3 none (by norm_num)
    (by norm_num) (by simp) (by decide) (by simp)

/-- C8: both thresholds are inclusive: an itemset whose support is exactly
`min_support` is kept by the support filter of lines 70-73, and a rule whose
confidence is exactly `min_confidence` is emitted by lines 104-110. -/
theorem thresholds_inclusive (A : Apriori α) (itemsets : Finset (Finset α))
    (s : Finset α) (d : FDict α) (t X : Finset α) (len? : Option ℕ)
    (hts : A.transactions ≠ []) (hs : s ∈ itemsets)
    (hsup : support s A.transactions = A.min_support)
    (ht : t ∈ d.keys) (htc : 2 ≤ t.card) (hkl : keepLen len? t = true)
    (hX : X ∈ generate_subsets t)
    (hcomp : ∀ u ∈ d.keys, 2 ≤ u.card → keepLen len? u = true →
      ∀ Z ∈ generate_subsets u, Z ∈ d.keys)
    (hconf : d.val t / d.val X = A.min_confidence) :
    (∃ d₁, frequent_itemsets_supports A itemsets = some d₁ ∧ s ∈ d₁.keys) ∧
    (∃ R, generate_association_rules (some d) A.min_confidence len? = .ok R ∧
      (X, t \ X, A.min_confidence) ∈ R) := by
  constructor
  · have hg : ¬(A.transactions.length = 0 ∧ itemsets.Nonempty) := by
      rintro ⟨hlen0, -⟩
      rw [List.length_eq_zero] at hlen0
      exact hts hlen0
    refine ⟨⟨itemsets.filter fun u => A.min_support ≤ support u A.transactions,
      fun u => support u A.transactions⟩, ?_, ?_⟩
    · unfold frequent_itemsets_supports
      rw [if_neg hg]
    · exact Finset.mem_filter.2 ⟨hs, le_of_eq hsup.symm⟩
  · have hne : d.keys ≠ ∅ := Finset.nonempty_iff_ne_empty.1 ⟨t, ht⟩
    refine ⟨rulesFrom d A.min_confidence len?,
      generate_association_rules_ok A.min_confidence len? hne hcomp, ?_⟩
    rw [mem_rulesFrom]
    exact ⟨t, ht, htc, hkl, X, hX, le_of_eq hconf.symm, by rw [hconf]⟩

/-- Witness for C8: support exactly at `min_support = 1/2` is kept and a rule
with confidence exactly at `min_confidence = 1/2` is emitted. -/
theorem thresholds_inclusive_witness :
    (∃ d₁, frequent_itemsets_supports (⟨[{0, 1}, {0}], 1/2, 1/2⟩ : Apriori ℕ)
        {{1}} = some d₁ ∧ {1} ∈ d₁.keys) ∧
    (∃ R, generate_association_rules
        (some ⟨{{0}, {1}, {0, 1}}, fun u => support u [{0, 1}, {0}]⟩)
        (1/2 : ℚ) none = .ok R ∧
      (({0} : Finset ℕ), ({0, 1} : Finset ℕ) \ {0}, (1/2 : ℚ)) ∈ R) :=
  thresholds_inclusive ⟨[{0, 1}, {0}], 1/2, 1/2⟩ {{1}} {1}
    ⟨{{0}, {1}, {0, 1}}, fun u => support u [{0, 1}, {0}]⟩ {0, 1} {0} none
    (by simp)
    (by decide)
    (by norm_num [support, List.countP_cons, List.countP_nil])
    (by decide)
    (by decide)
    rfl
    (by decide)
    (by decide)
    (by
      have h : ¬({0, 1} : Finset ℕ) = {0} := by decide
      norm_num [support, List.countP_cons, List.countP_nil, h])

end ClaimTheorems

end AprioriSpec
